import Mathlib

/-!
Verification of the retrieval core of the SEMP requirements-debt analyzer:
the sentence-based chunker (`src/rag/document_processor.py`), the FAISS-backed
vector store (`src/rag/vector_store.py`) and the knowledge-base orchestration
(`src/rag/knowledge_base.py`).

Modelling conventions:
* Python `str` (and `bytes`) values are modelled as `List Char` (`Str`).
* Floating-point numbers are idealized as exact rationals `ℚ`.  The square
  root used by `np.linalg.norm` is not rational, so the numerics library's
  square-root function is an explicit parameter `sqrt : ℚ → ℚ` of every
  operation that normalizes a vector; theorems that need `sqrt` to behave
  like a square root take that as a hypothesis at the relevant value.
* The FAISS `IndexFlatIP` is an exact inner-product index: it is modelled by
  the list of stored (already normalized) vectors, and its `search` as exact
  top-k selection by descending inner product with ties broken by ascending
  insertion id (the underlying flat search returns index order for equal
  scores).
* Python dictionaries used as metadata are modelled as association lists
  (`Meta`); `dict.get(k, d)` is `metaGet`/`lookup` with a default.
-/

/-- Python `str` modelled as a list of characters. -/
abbrev Str := List Char

/-- A Python metadata value: a string or an integer. -/
inductive PyVal where
  | s (v : Str)
  | n (v : Int)
deriving DecidableEq

/-- A Python dict used for metadata, as an association list
(later bindings shadow earlier ones on merge). -/
abbrev Meta := List (Str × PyVal)

/-! ## Python string primitives

`str.split()` (split on whitespace runs, dropping empty words),
`str.strip()`, `" ".join(...)` and `re.split(r'[.!?]+', ...)`, all on
`List Char`. -/

/-- Auxiliary state machine for `str.split()`: `acc` holds the reversed
characters of the word currently being read. -/
def splitWsAux : List Char → List Char → List (List Char)
  | [], acc => if acc = [] then [] else [acc.reverse]
  | c :: cs, acc =>
    if c.isWhitespace then
      if acc = [] then splitWsAux cs [] else acc.reverse :: splitWsAux cs []
    else splitWsAux cs (c :: acc)

/-- Python `text.split()`: words separated by whitespace runs, no empties. -/
def pySplitWs (s : Str) : List Str := splitWsAux s []

/-- `len(text.split())`, the word count used throughout the chunker. -/
def countWords (s : Str) : ℕ := (pySplitWs s).length

/-- Python `" ".join(words)`. -/
def joinWords : List Str → Str
  | [] => []
  | [w] => w
  | w :: ws => w ++ ' ' :: joinWords ws

/-- Python `text.strip()`: drop leading and trailing whitespace. -/
def pyStrip (s : Str) : Str :=
  ((s.dropWhile Char.isWhitespace).reverse.dropWhile Char.isWhitespace).reverse

/-- The sentence-delimiter class `[.!?]` of `_split_into_sentences`. -/
def punctChar (c : Char) : Bool := c == '.' || c == '!' || c == '?'

/-- `re.split(r'[.!?]+', text)`, modelled by splitting at every single
delimiter character.  The `+` in the regex only merges adjacent delimiters;
the segments this version produces between two adjacent delimiters are empty
and are discarded by the `if s.strip()` filter of
`_split_into_sentences`, so the filtered sentence list is identical. -/
def splitPunct : List Char → List Char → List (List Char)
  | [], acc => [acc.reverse]
  | c :: cs, acc =>
    if punctChar c then acc.reverse :: splitPunct cs []
    else splitPunct cs (c :: acc)

/-! ## DocumentProcessor (src/rag/document_processor.py) -/

/-- A chunk dictionary as built by `DocumentProcessor._create_chunk`. -/
structure Chunk where
  text : Str
  chunk_index : ℕ
  word_count : ℕ
  char_count : ℕ
  metadata : Meta
deriving DecidableEq

/-- `DocumentProcessor._split_into_sentences`:
`[s.strip() for s in re.split(r'[.!?]+', text) if s.strip()]`
(the code strips each segment and keeps the non-empty ones). -/
def splitIntoSentences (text : Str) : List Str :=
  ((splitPunct text []).map pyStrip).filter (fun s => s ≠ [])

/-- `DocumentProcessor._get_overlap_text`, including the Python negative-slice
quirk: for `chunk_overlap = 0`, `words[-0:]` is `words[0:]`, the whole list. -/
def getOverlapText (chunk_overlap : ℕ) (text : Str) : Str :=
  let words := pySplitWs text
  let overlap_words :=
    if chunk_overlap < words.length then
      if chunk_overlap = 0 then words
      else words.drop (words.length - chunk_overlap)
    else words
  joinWords overlap_words

/-- `DocumentProcessor._create_chunk`: the stored text is stripped, while
`word_count`/`char_count` are computed on the text as passed in. -/
def createChunk (text : Str) (metadata : Option Meta) (chunk_index : ℕ) : Chunk :=
  { text := pyStrip text
    chunk_index := chunk_index
    word_count := countWords text
    char_count := text.length
    metadata := metadata.getD [] }

/-- Loop state of `DocumentProcessor.chunk_text`: the chunks emitted so far,
the accumulating `current_chunk` and the tracked `current_size`. -/
structure ChunkState where
  chunks : List Chunk
  current : Str
  current_size : ℕ

/-- One iteration of the sentence loop in `DocumentProcessor.chunk_text`. -/
def chunkStep (chunk_size chunk_overlap : ℕ) (metadata : Option Meta)
    (st : ChunkState) (sentence : Str) : ChunkState :=
  let sentence_size := countWords sentence
  if chunk_size < st.current_size + sentence_size ∧ st.current ≠ [] then
    let chunks' := st.chunks ++ [createChunk st.current metadata st.chunks.length]
    let overlap_text := getOverlapText chunk_overlap st.current
    let current' := if overlap_text ≠ [] then overlap_text ++ ' ' :: sentence else sentence
    { chunks := chunks', current := current', current_size := countWords current' }
  else
    { chunks := st.chunks
      current := if st.current ≠ [] then st.current ++ ' ' :: sentence else sentence
      current_size := st.current_size + sentence_size }

/-- `DocumentProcessor.chunk_text`. -/
def chunk_text (chunk_size chunk_overlap : ℕ) (text : Str) (metadata : Option Meta) :
    List Chunk :=
  if pyStrip text = [] then []
  else
    let sentences := splitIntoSentences text
    let final := sentences.foldl (chunkStep chunk_size chunk_overlap metadata) ⟨[], [], 0⟩
    if pyStrip final.current ≠ [] then
      final.chunks ++ [createChunk final.current metadata final.chunks.length]
    else final.chunks

/-! ## SimpleVectorStore (src/rag/vector_store.py) -/

/-- Failure raised by the underlying FAISS index when a vector's width does
not match the configured dimension (the spec's `DimensionMismatch`). -/
inductive VSError where
  | dimensionMismatch
deriving DecidableEq

/-- Sum of squares of a vector; `np.linalg.norm v = sqrt (sumSq v)`. -/
def sumSq (v : List ℚ) : ℚ := (v.map (fun x => x * x)).sum

/-- The normalization in `add_vector`/`search`:
`norm = np.linalg.norm(vector); if norm > 0: vector = vector / norm`. -/
def normalizeVec (sqrt : ℚ → ℚ) (v : List ℚ) : List ℚ :=
  let norm := sqrt (sumSq v)
  if 0 < norm then v.map (fun x => x / norm) else v

/-- Inner product of two vectors. -/
def dot (a b : List ℚ) : ℚ := (List.zipWith (fun x y => x * y) a b).sum

/-- The state of `SimpleVectorStore`: the FAISS `IndexFlatIP` is the list of
stored (normalized) vectors, with `texts`/`metadata` as parallel arrays. -/
structure SimpleVectorStore where
  dimension : ℕ
  vectors : List (List ℚ)
  texts : List Str
  metadata : List Meta
deriving DecidableEq

/-- One search hit as returned by `SimpleVectorStore.search`. -/
structure SearchResult where
  text : Str
  score : ℚ
  metadata : Meta
  index : ℕ
deriving DecidableEq

/-- `(score, id)` pairs of the query against every stored vector. -/
def scorePairs (vectors : List (List ℚ)) (q : List ℚ) : List (ℚ × ℕ) :=
  ((vectors.map (dot q)).enum).map (fun p => (p.2, p.1))

/-- FAISS result order: higher score first, ties by ascending insertion id. -/
def resLE (a b : ℚ × ℕ) : Prop := b.1 < a.1 ∨ (a.1 = b.1 ∧ a.2 ≤ b.2)

instance : DecidableRel resLE := fun a b => by
  unfold resLE; infer_instance

/-- Insertion step of the sort modelling the FAISS top-k selection. -/
def insertRes (a : ℚ × ℕ) : List (ℚ × ℕ) → List (ℚ × ℕ)
  | [] => [a]
  | b :: bs => if resLE a b then a :: b :: bs else b :: insertRes a bs

/-- Sort hits by descending score, ties by ascending insertion id. -/
def sortRes : List (ℚ × ℕ) → List (ℚ × ℕ)
  | [] => []
  | a :: as => insertRes a (sortRes as)

/-- `SimpleVectorStore.add_vector`: normalizeVec, append to the FAISS index
(which fails on a width mismatch), then append text and metadata; returns
`len(self.texts)` as taken before the append. -/
def SimpleVectorStore.add_vector (sqrt : ℚ → ℚ) (s : SimpleVectorStore)
    (vector : List ℚ) (text : Str) (metadata : Option Meta) :
    Except VSError (SimpleVectorStore × ℕ) :=
  let v := normalizeVec sqrt vector
  if v.length ≠ s.dimension then Except.error VSError.dimensionMismatch
  else
    Except.ok
      ({ s with
          vectors := s.vectors ++ [v]
          texts := s.texts ++ [text]
          metadata := s.metadata ++ [metadata.getD []] },
        s.texts.length)

/-- `SimpleVectorStore.search`: empty-index early return, query
normalization, FAISS top-`min k ntotal` search (which fails on a width
mismatch), then the `score >= score_threshold` filter.  The `idx >= 0` guard
of the source is always true here because `k ≤ ntotal` leaves no `-1`
padding; `texts[idx]`/`metadata[idx]` are modelled with a default lookup
(in range whenever the parallel-array invariant of the store holds). -/
def SimpleVectorStore.search (sqrt : ℚ → ℚ) (s : SimpleVectorStore)
    (query_vector : List ℚ) (top_k : ℕ) (score_threshold : ℚ) :
    Except VSError (List SearchResult) :=
  if s.vectors.length = 0 then Except.ok []
  else
    let q := normalizeVec sqrt query_vector
    if q.length ≠ s.dimension then Except.error VSError.dimensionMismatch
    else
      let hits := (sortRes (scorePairs s.vectors q)).take (min top_k s.vectors.length)
      Except.ok (hits.filterMap (fun p =>
        if score_threshold ≤ p.1 then
          some { text := s.texts.getD p.2 []
                 score := p.1
                 metadata := s.metadata.getD p.2 []
                 index := p.2 }
        else none))

/-- On-disk state seen by `save`/`_load`: the FAISS index file and the
sibling JSON file holding metadata, texts and dimension. -/
structure Disk where
  indexFile : Option (List (List ℚ))
  metaFile : Option (List Meta × List Str × ℕ)
deriving DecidableEq

/-- A directory with neither file present (fresh start). -/
def emptyDisk : Disk := { indexFile := none, metaFile := none }

/-- `SimpleVectorStore.save`: writes the FAISS index and the JSON file with
`metadata`, `texts` and `dimension`. -/
def SimpleVectorStore.save (s : SimpleVectorStore) : Disk :=
  { indexFile := some s.vectors
    metaFile := some (s.metadata, s.texts, s.dimension) }

/-- `SimpleVectorStore.__init__` followed by `_load`: start from a fresh
index, replace it by the index file if present, and load texts/metadata from
the JSON file if present.  A persisted dimension differing from the
configured one is only logged, so the configured dimension is kept. -/
def initStore (dimension : ℕ) (d : Disk) : SimpleVectorStore :=
  let vectors := d.indexFile.getD []
  match d.metaFile with
  | some data => { dimension := dimension, vectors := vectors,
                   texts := data.2.1, metadata := data.1 }
  | none => { dimension := dimension, vectors := vectors, texts := [], metadata := [] }

/-- `SimpleVectorStore.clear`. -/
def SimpleVectorStore.clear (s : SimpleVectorStore) : SimpleVectorStore :=
  { dimension := s.dimension, vectors := [], texts := [], metadata := [] }

/-- The parallel-array invariant of the store (claim C10). -/
def StoreInv (s : SimpleVectorStore) : Prop :=
  s.vectors.length = s.texts.length ∧ s.texts.length = s.metadata.length

/-! ## Lemmas about the string primitives -/

theorem splitWsAux_append_ws (c : Char) (hc : c.isWhitespace = true) :
    ∀ (a : List Char) (acc b : List Char),
      splitWsAux (a ++ c :: b) acc = splitWsAux a acc ++ splitWsAux b []
  | [], acc, b => by
    by_cases h : acc = [] <;> simp [splitWsAux, hc, h]
  | d :: a, acc, b => by
    by_cases hd : d.isWhitespace
    · by_cases h : acc = [] <;>
        simp [splitWsAux, hd, h, splitWsAux_append_ws c hc a [] b]
    · simp only [List.cons_append, splitWsAux, hd]
      simp [hd, splitWsAux_append_ws c hc a (d :: acc) b]

theorem splitWsAux_clean_word :
    ∀ (w acc : List Char), (∀ x ∈ w, x.isWhitespace = false) →
      splitWsAux w acc = if acc.reverse ++ w = [] then [] else [acc.reverse ++ w]
  | [], acc, _ => by
    by_cases h : acc = [] <;> simp [splitWsAux, h]
  | d :: w, acc, hw => by
    have hd : d.isWhitespace = false := hw d (by simp)
    have := splitWsAux_clean_word w (d :: acc) (fun x hx => hw x (by simp [hx]))
    simp only [splitWsAux, hd, Bool.false_eq_true, if_false, this,
      List.reverse_cons, List.append_assoc]
    simp

theorem pySplitWs_nil : pySplitWs [] = [] := rfl

theorem pySplitWs_clean_word (w : List Char) (hne : w ≠ [])
    (hw : ∀ x ∈ w, x.isWhitespace = false) : pySplitWs w = [w] := by
  unfold pySplitWs
  rw [splitWsAux_clean_word w [] hw]
  simp [hne]

theorem pySplitWs_append_ws (a b : List Char) (c : Char) (hc : c.isWhitespace = true) :
    pySplitWs (a ++ c :: b) = pySplitWs a ++ pySplitWs b := by
  unfold pySplitWs
  exact splitWsAux_append_ws c hc a [] b

theorem countWords_append_space (a b : List Char) :
    countWords (a ++ ' ' :: b) = countWords a + countWords b := by
  unfold countWords
  rw [pySplitWs_append_ws a b ' ' (by decide)]
  simp

theorem splitWsAux_mem_clean :
    ∀ (s acc : List Char), (∀ x ∈ acc, x.isWhitespace = false) →
      ∀ w ∈ splitWsAux s acc, w ≠ [] ∧ ∀ x ∈ w, x.isWhitespace = false
  | [], acc, hacc => by
    by_cases h : acc = []
    · simp [splitWsAux, h]
    · simp only [splitWsAux, h, if_false]
      intro w hw
      simp only [List.mem_singleton] at hw
      subst hw
      exact ⟨by simpa using h, fun x hx => hacc x (List.mem_reverse.mp hx)⟩
  | c :: cs, acc, hacc => by
    by_cases hc : c.isWhitespace
    · by_cases h : acc = []
      · simp only [splitWsAux, hc, if_true, h, if_true]
        exact splitWsAux_mem_clean cs [] (by simp)
      · simp only [splitWsAux, hc, if_true, h, if_false]
        intro w hw
        rcases List.mem_cons.mp hw with hw | hw
        · subst hw
          exact ⟨by simpa using h, fun x hx => hacc x (List.mem_reverse.mp hx)⟩
        · exact splitWsAux_mem_clean cs [] (by simp) w hw
    · simp only [splitWsAux, hc, if_false]
      exact splitWsAux_mem_clean cs (c :: acc)
        (fun x hx => by
          rcases List.mem_cons.mp hx with hx | hx
          · subst hx; simpa using hc
          · exact hacc x hx)

theorem pySplitWs_mem_clean (s : Str) :
    ∀ w ∈ pySplitWs s, w ≠ [] ∧ ∀ x ∈ w, x.isWhitespace = false :=
  splitWsAux_mem_clean s [] (by simp)

theorem pySplitWs_join (ws : List Str)
    (h : ∀ w ∈ ws, w ≠ [] ∧ ∀ x ∈ w, x.isWhitespace = false) :
    pySplitWs (joinWords ws) = ws := by
  match ws with
  | [] => simp [joinWords, pySplitWs_nil]
  | [w] =>
    have hw := h w (by simp)
    simpa [joinWords] using pySplitWs_clean_word w hw.1 hw.2
  | w :: v :: rest =>
    have hw := h w (by simp)
    have hrest : ∀ u ∈ v :: rest, u ≠ [] ∧ ∀ x ∈ u, x.isWhitespace = false :=
      fun u hu => h u (by simp [hu])
    show pySplitWs (w ++ ' ' :: joinWords (v :: rest)) = w :: v :: rest
    rw [pySplitWs_append_ws w _ ' ' (by decide), pySplitWs_clean_word w hw.1 hw.2,
      pySplitWs_join (v :: rest) hrest]
    rfl

theorem joinWords_ne_nil (ws : List Str) (hne : ws ≠ [])
    (h : ∀ w ∈ ws, w ≠ [] ∧ ∀ x ∈ w, x.isWhitespace = false) :
    joinWords ws ≠ [] := by
  intro hj
  have := pySplitWs_join ws h
  rw [hj, pySplitWs_nil] at this
  exact hne this.symm

/-- A string with no leading and no trailing whitespace (the shape
`current_chunk` always has, which makes `text.strip()` the identity). -/
def GoodText (s : Str) : Prop :=
  (∀ c ∈ s.head?, c.isWhitespace = false) ∧ (∀ c ∈ s.getLast?, c.isWhitespace = false)

theorem goodText_nil : GoodText [] := by
  constructor <;> simp

theorem dropWhile_eq_self_of_head (s : Str)
    (h : ∀ c ∈ s.head?, c.isWhitespace = false) :
    s.dropWhile Char.isWhitespace = s := by
  cases s with
  | nil => rfl
  | cons c t =>
    have hc : c.isWhitespace = false := h c (by simp)
    simp [List.dropWhile_cons, hc]

theorem pyStrip_eq_self (s : Str) (h : GoodText s) : pyStrip s = s := by
  unfold pyStrip
  rw [dropWhile_eq_self_of_head s h.1]
  rw [dropWhile_eq_self_of_head s.reverse (by simpa using h.2)]
  exact List.reverse_reverse s

theorem head?_dropWhile_not (p : Char → Bool) :
    ∀ (l : Str) (c : Char), (l.dropWhile p).head? = some c → p c = false
  | [], c => by simp
  | d :: t, c => by
    by_cases hd : p d
    · simp only [List.dropWhile_cons, hd, if_true]
      exact head?_dropWhile_not p t c
    · intro h
      rw [List.dropWhile_cons, if_neg hd] at h
      simp only [List.head?_cons, Option.some_inj] at h
      subst h
      simpa using hd

theorem getLast?_dropWhile (p : Char → Bool) :
    ∀ (l : Str), l.dropWhile p ≠ [] → (l.dropWhile p).getLast? = l.getLast?
  | [], h => by simp at h
  | d :: t, h => by
    by_cases hd : p d
    · simp only [List.dropWhile_cons, hd, if_true] at h ⊢
      have ht : t ≠ [] := by
        intro ht
        subst ht
        simp at h
      rw [getLast?_dropWhile p t h]
      cases t with
      | nil => exact absurd rfl ht
      | cons a b => simp [List.getLast?_cons_cons]
    · simp [List.dropWhile_cons, hd]

theorem goodText_pyStrip (s : Str) : GoodText (pyStrip s) := by
  unfold pyStrip
  set A := s.dropWhile Char.isWhitespace with hA
  set B := A.reverse.dropWhile Char.isWhitespace with hB
  constructor
  · intro c hc
    rw [List.head?_reverse] at hc
    by_cases hBe : B = []
    · rw [hBe] at hc; simp at hc
    · rw [hB, getLast?_dropWhile Char.isWhitespace A.reverse (hB ▸ hBe)] at hc
      rw [List.getLast?_reverse] at hc
      exact head?_dropWhile_not Char.isWhitespace s c hc
  · intro c hc
    rw [List.getLast?_reverse] at hc
    exact head?_dropWhile_not Char.isWhitespace A.reverse c hc

theorem goodText_append_space (a b : Str) (ha : GoodText a) (hane : a ≠ [])
    (hb : GoodText b) (hbne : b ≠ []) : GoodText (a ++ ' ' :: b) := by
  constructor
  · intro c hc
    rw [List.head?_append] at hc
    cases hah : a.head? with
    | none => exact absurd (List.head?_eq_none_iff.mp hah) hane
    | some d =>
      rw [hah] at hc
      simp only [Option.or_some, Option.mem_def, Option.some_inj] at hc
      subst hc
      exact ha.1 d (by simp [hah])
  · intro c hc
    rw [List.getLast?_append] at hc
    have hbl : (' ' :: b).getLast? = b.getLast? := by
      cases b with
      | nil => exact absurd rfl hbne
      | cons x y => simp [List.getLast?_cons_cons]
    rw [hbl] at hc
    cases hbh : b.getLast? with
    | none => exact absurd (List.getLast?_eq_none_iff.mp hbh) hbne
    | some d =>
      rw [hbh] at hc
      simp only [Option.or_some, Option.mem_def, Option.some_inj] at hc
      subst hc
      exact hb.2 d (by simp [hbh])

theorem goodText_of_clean (w : Str) (hw : ∀ x ∈ w, x.isWhitespace = false) :
    GoodText w := by
  constructor
  · intro c hc
    exact hw c (List.mem_of_mem_head? hc)
  · intro c hc
    exact hw c (List.mem_of_mem_getLast? hc)

theorem goodText_join (ws : List Str)
    (h : ∀ w ∈ ws, w ≠ [] ∧ ∀ x ∈ w, x.isWhitespace = false) :
    GoodText (joinWords ws) := by
  match ws with
  | [] => exact goodText_nil
  | [w] =>
    exact goodText_of_clean w (h w (by simp)).2
  | w :: v :: rest =>
    have hw := h w (by simp)
    have hrest : ∀ u ∈ v :: rest, u ≠ [] ∧ ∀ x ∈ u, x.isWhitespace = false :=
      fun u hu => h u (by simp [hu])
    have ihg : GoodText (joinWords (v :: rest)) := goodText_join (v :: rest) hrest
    have ihne : joinWords (v :: rest) ≠ [] :=
      joinWords_ne_nil (v :: rest) (by simp) hrest
    show GoodText (w ++ ' ' :: joinWords (v :: rest))
    exact goodText_append_space w _ (goodText_of_clean w hw.2) hw.1 ihg ihne

theorem pySplitWs_ne_nil (s : Str) (hg : GoodText s) (hne : s ≠ []) :
    pySplitWs s ≠ [] := by
  have aux : ∀ (t acc : List Char), acc ≠ [] → splitWsAux t acc ≠ [] := by
    intro t
    induction t with
    | nil => intro acc h; simp [splitWsAux, h]
    | cons c cs ih =>
      intro acc h
      by_cases hc : c.isWhitespace
      · simp [splitWsAux, hc, h]
      · simp only [splitWsAux, hc, Bool.false_eq_true, if_false]
        exact ih (c :: acc) (by simp)
  cases s with
  | nil => exact absurd rfl hne
  | cons c t =>
    have hc : c.isWhitespace = false := hg.1 c (by simp)
    unfold pySplitWs
    simp only [splitWsAux, hc, Bool.false_eq_true, if_false]
    exact aux t [c] (by simp)

/-! ## The chunker invariant -/

/-- The last `n` elements of a list (the value of `words[-n:]` for `n ≥ 1`,
and of "the trailing `n` words" in the spec). -/
def lastWordsN (n : ℕ) (l : List Str) : List Str := l.drop (l.length - n)

/-- The word list of `cur` starts with the trailing `O` words of the chunk
`a`, provided `a` has at least `O` words. -/
def linkTo (O : ℕ) (a : Chunk) (cur : Str) : Prop :=
  O ≤ countWords a.text → (pySplitWs cur).take O = lastWordsN O (pySplitWs a.text)

/-- Adjacent-chunk overlap relation (claim C3). -/
def chunkLink (O : ℕ) (a b : Chunk) : Prop := linkTo O a b.text

theorem take_append_le {α : Type} (n : ℕ) (l₁ l₂ : List α) (h : n ≤ l₁.length) :
    (l₁ ++ l₂).take n = l₁.take n := by
  rw [List.take_append_eq_append_take]
  have h0 : n - l₁.length = 0 := by omega
  simp [h0]

/-- What `_get_overlap_text` returns on a well-formed `current_chunk`:
a space-join of a nonempty list of clean words; at most `O` of them when
`O ≥ 1`; exactly the trailing `O` words when `1 ≤ O ≤ len(words)`. -/
theorem overlap_spec (O : ℕ) (cur : Str) (hg : GoodText cur) (hne : cur ≠ []) :
    ∃ ow : List Str,
      getOverlapText O cur = joinWords ow ∧
      (∀ w ∈ ow, w ≠ [] ∧ ∀ x ∈ w, x.isWhitespace = false) ∧
      ow ≠ [] ∧
      (1 ≤ O → ow.length ≤ O) ∧
      (1 ≤ O → O ≤ (pySplitWs cur).length → ow = lastWordsN O (pySplitWs cur)) := by
  have hwords : pySplitWs cur ≠ [] := pySplitWs_ne_nil cur hg hne
  have hclean := pySplitWs_mem_clean cur
  unfold getOverlapText
  by_cases hlt : O < (pySplitWs cur).length
  · by_cases hO0 : O = 0
    · refine ⟨pySplitWs cur, by simp [hlt, hO0], hclean, hwords, ?_, ?_⟩
      · intro h1; omega
      · intro h1; omega
    · refine ⟨(pySplitWs cur).drop ((pySplitWs cur).length - O), by simp [hlt, hO0], ?_, ?_, ?_, ?_⟩
      · intro w hw
        exact hclean w (List.mem_of_mem_drop hw)
      · intro hd
        have := congrArg List.length hd
        simp only [List.length_drop, List.length_nil] at this
        omega
      · intro _
        simp only [List.length_drop]
        omega
      · intro _ _
        rfl
  · refine ⟨pySplitWs cur, by simp [hlt], hclean, hwords, ?_, ?_⟩
    · intro _
      omega
    · intro _ hOle
      have hlen : (pySplitWs cur).length = O := by omega
      unfold lastWordsN
      rw [hlen]
      simp

/-- The loop invariant of `chunk_text`, parametrized by the chunk size `S`,
the overlap `O` and a bound `L` on the word count of every sentence. -/
structure ChunkInv (S O L : ℕ) (st : ChunkState) : Prop where
  good : GoodText st.current
  size_eq : st.current_size = countWords st.current
  dense : st.chunks.map Chunk.chunk_index = List.range st.chunks.length
  counts : ∀ c ∈ st.chunks, c.word_count = countWords c.text ∧ c.char_count = c.text.length
  bound_chunks : 1 ≤ O → ∀ c ∈ st.chunks, c.word_count ≤ max S (O + L)
  bound_cur : 1 ≤ O → st.current_size ≤ max S (O + L)
  links : List.Chain' (chunkLink O) st.chunks
  last_link : ∀ c ∈ st.chunks.getLast?, linkTo O c st.current
  cur_ne : st.chunks ≠ [] → st.current ≠ []

theorem chunkInv_init (S O L : ℕ) : ChunkInv S O L ⟨[], [], 0⟩ where
  good := goodText_nil
  size_eq := by simp [countWords, pySplitWs_nil]
  dense := by simp
  counts := by simp
  bound_chunks := by simp
  bound_cur := by simp
  links := List.chain'_nil
  last_link := by simp
  cur_ne := by simp

theorem chunkStep_inv (S O L : ℕ) (md : Option Meta) (st : ChunkState)
    (sentence : Str) (hsne : sentence ≠ []) (hsg : GoodText sentence)
    (hsL : countWords sentence ≤ L) (h : ChunkInv S O L st) :
    ChunkInv S O L (chunkStep S O md st sentence) := by
  unfold chunkStep
  dsimp only
  by_cases hcond : S < st.current_size + countWords sentence ∧ st.current ≠ []
  · rw [if_pos hcond]
    obtain ⟨hover, hcur⟩ := hcond
    obtain ⟨ow, how, howclean, hownil, howlen, howlast⟩ :=
      overlap_spec O st.current h.good hcur
    have hovne : getOverlapText O st.current ≠ [] := by
      rw [how]
      exact joinWords_ne_nil ow hownil howclean
    rw [if_pos hovne]
    have hstrip : pyStrip st.current = st.current := pyStrip_eq_self _ h.good
    have hc0text : (createChunk st.current md st.chunks.length).text = st.current := by
      simp [createChunk, hstrip]
    have hcw : countWords (getOverlapText O st.current ++ ' ' :: sentence)
        = ow.length + countWords sentence := by
      rw [countWords_append_space, how]
      unfold countWords
      rw [pySplitWs_join ow howclean]
    have hwords : pySplitWs (getOverlapText O st.current ++ ' ' :: sentence)
        = ow ++ pySplitWs sentence := by
      rw [pySplitWs_append_ws _ _ ' ' (by decide), how, pySplitWs_join ow howclean]
    refine ⟨?_, rfl, ?_, ?_, ?_, ?_, ?_, ?_, ?_⟩
    · exact goodText_append_space _ _ (how ▸ goodText_join ow howclean) hovne hsg hsne
    · simp only [List.map_append, h.dense, List.length_append, List.map_cons,
        List.map_nil, createChunk]
      simp [List.range_succ]
    · intro c hc
      rcases List.mem_append.mp hc with hc | hc
      · exact h.counts c hc
      · simp only [List.mem_singleton] at hc
        subst hc
        refine ⟨?_, ?_⟩
        · rw [hc0text]
          simp [createChunk]
        · rw [hc0text]
          simp [createChunk, hstrip]
    · intro hO1 c hc
      rcases List.mem_append.mp hc with hc | hc
      · exact h.bound_chunks hO1 c hc
      · simp only [List.mem_singleton] at hc
        subst hc
        show countWords st.current ≤ max S (O + L)
        rw [← h.size_eq]
        exact h.bound_cur hO1
    · intro hO1
      show countWords (getOverlapText O st.current ++ ' ' :: sentence) ≤ max S (O + L)
      rw [hcw]
      have h1 : ow.length ≤ O := howlen hO1
      have h2 : ow.length + countWords sentence ≤ O + L := by omega
      exact le_trans h2 (le_max_right S (O + L))
    · refine List.chain'_append.mpr ⟨h.links, List.chain'_singleton _, ?_⟩
      intro x hx y hy
      simp only [List.head?_cons, Option.mem_def, Option.some_inj] at hy
      subst hy
      unfold chunkLink linkTo
      rw [hc0text]
      exact h.last_link x hx
    · intro c hc
      rw [List.getLast?_concat] at hc
      simp only [Option.mem_def, Option.some_inj] at hc
      subst hc
      intro hOc
      rw [hc0text] at hOc ⊢
      by_cases hO0 : O = 0
      · subst hO0
        unfold lastWordsN
        simp
      · have hO1 : 1 ≤ O := by omega
        have hOle : O ≤ (pySplitWs st.current).length := hOc
        have howval : ow = lastWordsN O (pySplitWs st.current) := howlast hO1 hOle
        have howlength : ow.length = O := by
          rw [howval]
          unfold lastWordsN
          simp only [List.length_drop]
          omega
        rw [hwords, take_append_le O ow (pySplitWs sentence) (by omega), ← howval,
          List.take_of_length_le (by omega)]
    · intro _
      simp
  · rw [if_neg hcond]
    by_cases hcur : st.current = []
    · have hchunks : st.chunks = [] := by
        by_contra hne
        exact (h.cur_ne hne) hcur
      have hcurne : ¬(st.current ≠ []) := fun hx => hx hcur
      rw [if_neg hcurne]
      have hsize0 : st.current_size = 0 := by
        rw [h.size_eq, hcur]
        simp [countWords, pySplitWs_nil]
      refine ⟨hsg, ?_, h.dense, h.counts, h.bound_chunks, ?_, h.links, ?_, ?_⟩
      · rw [hsize0]
        simp
      · intro _
        show st.current_size + countWords sentence ≤ max S (O + L)
        have hb : st.current_size + countWords sentence ≤ O + L := by omega
        exact le_trans hb (le_max_right S (O + L))
      · intro c hc
        rw [hchunks] at hc
        simp at hc
      · intro hne
        rw [hchunks] at hne
        exact absurd rfl hne
    · rw [if_pos hcur]
      have hle : st.current_size + countWords sentence ≤ S := by
        by_contra hgt
        exact hcond ⟨by omega, hcur⟩
      refine ⟨?_, ?_, h.dense, h.counts, h.bound_chunks, ?_, h.links, ?_, ?_⟩
      · exact goodText_append_space _ _ h.good hcur hsg hsne
      · rw [countWords_append_space, h.size_eq]
      · intro _
        exact le_trans hle (le_max_left S (O + L))
      · intro c hc
        intro hOc
        have hl := h.last_link c hc hOc
        have hlastlen : (lastWordsN O (pySplitWs c.text)).length = O := by
          unfold lastWordsN
          simp only [List.length_drop]
          unfold countWords at hOc
          omega
        have htakelen : ((pySplitWs st.current).take O).length = O := by
          rw [hl, hlastlen]
        have hOlecur : O ≤ (pySplitWs st.current).length := by
          rw [List.length_take] at htakelen
          omega
        rw [pySplitWs_append_ws _ _ ' ' (by decide),
          take_append_le O _ _ hOlecur, hl]
      · intro _
        simp

theorem foldl_chunkStep_inv (S O L : ℕ) (md : Option Meta) :
    ∀ (ss : List Str) (st : ChunkState),
      (∀ s ∈ ss, s ≠ [] ∧ GoodText s ∧ countWords s ≤ L) →
      ChunkInv S O L st →
      ChunkInv S O L (ss.foldl (chunkStep S O md) st)
  | [], st, _, h => h
  | s :: ss, st, hss, h => by
    have hs := hss s (by simp)
    exact foldl_chunkStep_inv S O L md ss (chunkStep S O md st s)
      (fun u hu => hss u (by simp [hu]))
      (chunkStep_inv S O L md st s hs.1 hs.2.1 hs.2.2 h)

theorem splitIntoSentences_ok (text : Str) :
    ∀ s ∈ splitIntoSentences text, s ≠ [] ∧ GoodText s := by
  intro s hs
  unfold splitIntoSentences at hs
  have hne : s ≠ [] := by
    have := List.of_mem_filter hs
    simpa using this
  have hmem := List.mem_of_mem_filter hs
  obtain ⟨seg, _, hseg⟩ := List.mem_map.mp hmem
  exact ⟨hne, hseg ▸ goodText_pyStrip seg⟩

/-- The largest word count of any sentence of `text` (the `L` of the
amended claim C2). -/
def maxSentWords (text : Str) : ℕ :=
  ((splitIntoSentences text).map countWords).foldr max 0

theorem le_foldr_max (l : List ℕ) : ∀ x ∈ l, x ≤ l.foldr max 0 := by
  induction l with
  | nil => simp
  | cons a t ih =>
    intro x hx
    rcases List.mem_cons.mp hx with h1 | h1
    · rw [h1]
      exact le_max_left a (t.foldr max 0)
    · exact le_trans (ih x h1) (le_max_right a (t.foldr max 0))

theorem le_maxSentWords (text : Str) (s : Str) (hs : s ∈ splitIntoSentences text) :
    countWords s ≤ maxSentWords text :=
  le_foldr_max _ _ (List.mem_map.mpr ⟨s, hs, rfl⟩)

/-- The consolidated facts about the chunk list produced by `chunk_text`:
dense zero-based indices, self-consistent word/char counts, the chunk-size
bound for overlaps `≥ 1`, and the adjacent-overlap relation. -/
theorem chunk_text_props (S O : ℕ) (text : Str) (md : Option Meta) :
    (chunk_text S O text md).map Chunk.chunk_index
        = List.range (chunk_text S O text md).length ∧
    (∀ c ∈ chunk_text S O text md,
        c.word_count = countWords c.text ∧ c.char_count = c.text.length) ∧
    (1 ≤ O → ∀ c ∈ chunk_text S O text md,
        c.word_count ≤ max S (O + maxSentWords text)) ∧
    List.Chain' (chunkLink O) (chunk_text S O text md) := by
  unfold chunk_text
  by_cases hstrip : pyStrip text = []
  · rw [if_pos hstrip]
    refine ⟨by simp, by simp, by simp, List.chain'_nil⟩
  · rw [if_neg hstrip]
    dsimp only
    set st := (splitIntoSentences text).foldl (chunkStep S O md) ⟨[], [], 0⟩ with hst
    have hinv : ChunkInv S O (maxSentWords text) st :=
      foldl_chunkStep_inv S O (maxSentWords text) md (splitIntoSentences text) ⟨[], [], 0⟩
        (fun s hs => ⟨(splitIntoSentences_ok text s hs).1,
          (splitIntoSentences_ok text s hs).2, le_maxSentWords text s hs⟩)
        (chunkInv_init S O (maxSentWords text))
    have hstripcur : pyStrip st.current = st.current := pyStrip_eq_self _ hinv.good
    by_cases hfin : pyStrip st.current ≠ []
    · rw [if_pos hfin]
      have hcurne : st.current ≠ [] := by
        rw [hstripcur] at hfin
        exact hfin
      have hc0text : (createChunk st.current md st.chunks.length).text = st.current := by
        simp [createChunk, hstripcur]
      refine ⟨?_, ?_, ?_, ?_⟩
      · simp only [List.map_append, hinv.dense, List.length_append, List.map_cons,
          List.map_nil, createChunk]
        simp [List.range_succ]
      · intro c hc
        rcases List.mem_append.mp hc with hc | hc
        · exact hinv.counts c hc
        · simp only [List.mem_singleton] at hc
          subst hc
          refine ⟨?_, ?_⟩
          · rw [hc0text]
            simp [createChunk]
          · rw [hc0text]
            simp [createChunk, hstripcur]
      · intro hO1 c hc
        rcases List.mem_append.mp hc with hc | hc
        · exact hinv.bound_chunks hO1 c hc
        · simp only [List.mem_singleton] at hc
          subst hc
          show countWords st.current ≤ max S (O + maxSentWords text)
          rw [← hinv.size_eq]
          exact hinv.bound_cur hO1
      · refine List.chain'_append.mpr ⟨hinv.links, List.chain'_singleton _, ?_⟩
        intro x hx y hy
        simp only [List.head?_cons, Option.mem_def, Option.some_inj] at hy
        subst hy
        unfold chunkLink linkTo
        rw [hc0text]
        exact hinv.last_link x hx
    · rw [if_neg hfin]
      exact ⟨hinv.dense, hinv.counts, hinv.bound_chunks, hinv.links⟩

/-! ## Claims about the chunker -/

/-- C9: for every input text and metadata, `chunk_text` produces chunks with
`chunk_index` dense and zero-based (the i-th produced chunk has index i, so
the chunks are in left-to-right production order), and every chunk's
`word_count` and `char_count` equal the number of words and the number of
characters of that chunk's own stored `text` field. -/
theorem C9_chunk_order_and_counts (S O : ℕ) (text : Str) (md : Option Meta) :
    (chunk_text S O text md).map Chunk.chunk_index
        = List.range (chunk_text S O text md).length ∧
    ∀ c ∈ chunk_text S O text md,
      c.word_count = countWords c.text ∧ c.char_count = c.text.length :=
  ⟨(chunk_text_props S O text md).1, (chunk_text_props S O text md).2.1⟩

def ctextC9 : Str := "x y. z w.".toList

theorem C9_witness :
    ((chunk_text 3 1 ctextC9 none).map Chunk.chunk_index
        = List.range (chunk_text 3 1 ctextC9 none).length ∧
      ∀ c ∈ chunk_text 3 1 ctextC9 none,
        c.word_count = countWords c.text ∧ c.char_count = c.text.length) ∧
    (chunk_text 3 1 ctextC9 none).length = 2 :=
  ⟨C9_chunk_order_and_counts 3 1 ctextC9 none, by decide⟩

def ctextC2 : Str := "a a a a. b b b b. c.".toList

/-- C2 as stated is false: with `chunk_size = 5`, `chunk_overlap = 2` and a
text whose sentences all have at most 5 words (they have 4, 4 and 1), the
rollover seeds the next chunk with 2 overlap words and then appends a
4-word sentence, producing a 6-word chunk that contains no oversized
sentence. -/
theorem C2_counterexample :
    2 < 5 ∧
    (∀ s ∈ splitIntoSentences ctextC2, countWords s ≤ 5) ∧
    ∃ c ∈ chunk_text 5 2 ctextC2 none, 5 < c.word_count := by decide

/-- C2, amended: for `1 ≤ O < S`, every chunk produced by `chunk_text` has
`word_count` at most `max S (O + L)`, where `L` is the largest word count of
any single sentence of the input; chunks can exceed `S` not only when a
single sentence is longer than `S` words (such a sentence is never split and
becomes one oversized chunk), but also when a rollover seeds a chunk with up
to `O` overlap words before the triggering sentence is appended. -/
theorem C2_amended_bound (S O : ℕ) (text : Str) (md : Option Meta)
    (hO1 : 1 ≤ O) (_hOS : O < S) :
    ∀ c ∈ chunk_text S O text md, c.word_count ≤ max S (O + maxSentWords text) :=
  fun c hc => (chunk_text_props S O text md).2.2.1 hO1 c hc

theorem C2_amended_witness :
    (1 ≤ 2 ∧ 2 < 5) ∧
    ∀ c ∈ chunk_text 5 2 ctextC2 none,
      c.word_count ≤ max 5 (2 + maxSentWords ctextC2) :=
  ⟨by decide, C2_amended_bound 5 2 ctextC2 none (by decide) (by decide)⟩

/-- C3: chunking with overlap `O < S`, whenever `O` is at most the word
count of the chunk closed immediately before, each later chunk begins with
exactly the trailing `O` words of that previous chunk. -/
theorem C3_overlap (S O : ℕ) (text : Str) (md : Option Meta) (_hOS : O < S)
    (i : ℕ) (h : i + 1 < (chunk_text S O text md).length)
    (hguard : O ≤ countWords ((chunk_text S O text md).get ⟨i, by omega⟩).text) :
    (pySplitWs ((chunk_text S O text md).get ⟨i + 1, h⟩).text).take O
      = lastWordsN O (pySplitWs ((chunk_text S O text md).get ⟨i, by omega⟩).text) := by
  have hchain := (chunk_text_props S O text md).2.2.2
  have hrel := List.chain'_iff_get.mp hchain i (by omega)
  exact hrel hguard

def ctextC3 : Str := "a b c. d e f.".toList

theorem C3_witness :
    (pySplitWs ((chunk_text 4 2 ctextC3 none).get ⟨1, by decide⟩).text).take 2
      = lastWordsN 2 (pySplitWs ((chunk_text 4 2 ctextC3 none).get ⟨0, by decide⟩).text) :=
  C3_overlap 4 2 ctextC3 none (by decide) 0 (by decide) (by decide)

/-! ## Lemmas about the FAISS search model -/

theorem resLE_total (a b : ℚ × ℕ) : resLE a b ∨ resLE b a := by
  unfold resLE
  rcases lt_trichotomy a.1 b.1 with h | h | h
  · right; left; exact h
  · rcases Nat.le_total a.2 b.2 with h2 | h2
    · left; right; exact ⟨h, h2⟩
    · right; right; exact ⟨h.symm, h2⟩
  · left; left; exact h

theorem resLE_trans (a b c : ℚ × ℕ) (hab : resLE a b) (hbc : resLE b c) :
    resLE a c := by
  unfold resLE at *
  rcases hab with h1 | ⟨h1, h1'⟩
  · rcases hbc with h2 | ⟨h2, _⟩
    · left; exact lt_trans h2 h1
    · left; rw [← h2]; exact h1
  · rcases hbc with h2 | ⟨h2, h2'⟩
    · left; rw [h1]; exact h2
    · right; exact ⟨h1.trans h2, le_trans h1' h2'⟩

theorem mem_insertRes (a x : ℚ × ℕ) :
    ∀ l : List (ℚ × ℕ), x ∈ insertRes a l ↔ x = a ∨ x ∈ l
  | [] => by simp [insertRes]
  | b :: bs => by
    unfold insertRes
    by_cases h : resLE a b
    · rw [if_pos h]
      simp
    · rw [if_neg h]
      simp only [List.mem_cons, mem_insertRes a x bs]
      tauto

theorem pairwise_insertRes (a : ℚ × ℕ) :
    ∀ l : List (ℚ × ℕ), List.Pairwise resLE l →
      List.Pairwise resLE (insertRes a l)
  | [], _ => by simp [insertRes]
  | b :: bs, h => by
    rw [List.pairwise_cons] at h
    unfold insertRes
    by_cases hab : resLE a b
    · rw [if_pos hab]
      rw [List.pairwise_cons]
      refine ⟨?_, List.pairwise_cons.mpr h⟩
      intro x hx
      rcases List.mem_cons.mp hx with hx | hx
      · rw [hx]; exact hab
      · exact resLE_trans a b x hab (h.1 x hx)
    · rw [if_neg hab]
      have hba : resLE b a := (resLE_total a b).resolve_left hab
      rw [List.pairwise_cons]
      refine ⟨?_, pairwise_insertRes a bs h.2⟩
      intro x hx
      rcases (mem_insertRes a x bs).mp hx with hx | hx
      · rw [hx]; exact hba
      · exact h.1 x hx

theorem pairwise_sortRes : ∀ l : List (ℚ × ℕ), List.Pairwise resLE (sortRes l)
  | [] => by simp [sortRes]
  | a :: as => pairwise_insertRes a (sortRes as) (pairwise_sortRes as)

theorem perm_insertRes (a : ℚ × ℕ) :
    ∀ l : List (ℚ × ℕ), List.Perm (insertRes a l) (a :: l)
  | [] => by simp [insertRes]
  | b :: bs => by
    unfold insertRes
    by_cases h : resLE a b
    · rw [if_pos h]
    · rw [if_neg h]
      exact List.Perm.trans (List.Perm.cons b (perm_insertRes a bs))
        (List.Perm.swap a b bs)

theorem perm_sortRes : ∀ l : List (ℚ × ℕ), List.Perm (sortRes l) l
  | [] => List.Perm.refl []
  | a :: as =>
    List.Perm.trans (perm_insertRes a (sortRes as))
      (List.Perm.cons a (perm_sortRes as))

theorem pairwise_zip_left {α β : Type} (R : α → α → Prop) :
    ∀ (l₁ : List α) (l₂ : List β), List.Pairwise R l₁ →
      List.Pairwise (fun a b => R a.1 b.1) (List.zip l₁ l₂)
  | [], _, _ => by simp
  | _ :: _, [], _ => by simp
  | a :: l₁, b :: l₂, h => by
    rw [List.pairwise_cons] at h
    rw [List.zip_cons_cons, List.pairwise_cons]
    refine ⟨?_, pairwise_zip_left R l₁ l₂ h.2⟩
    intro p hp
    obtain ⟨x, y⟩ := p
    exact h.1 x (List.of_mem_zip hp).1

theorem pairwise_lt_enum {α : Type} (l : List α) :
    List.Pairwise (fun a b : ℕ × α => a.1 < b.1) l.enum := by
  rw [List.enum_eq_zip_range]
  exact pairwise_zip_left (fun a b => a < b) _ _ (List.pairwise_lt_range l.length)

theorem scorePairs_pairwise_ne (vectors : List (List ℚ)) (q : List ℚ) :
    List.Pairwise (fun a b : ℚ × ℕ => a.2 ≠ b.2) (scorePairs vectors q) := by
  unfold scorePairs
  rw [List.pairwise_map]
  exact (pairwise_lt_enum _).imp (fun h => Nat.ne_of_lt h)

theorem sortRes_pairwise_ne (l : List (ℚ × ℕ))
    (h : List.Pairwise (fun a b : ℚ × ℕ => a.2 ≠ b.2) l) :
    List.Pairwise (fun a b : ℚ × ℕ => a.2 ≠ b.2) (sortRes l) :=
  ((perm_sortRes l).pairwise_iff (fun hxy => Ne.symm hxy)).mpr h

theorem filterMap_if {α β : Type} (c : α → Prop) [DecidablePred c] (g : α → β) :
    ∀ l : List α,
      l.filterMap (fun a => if c a then some (g a) else none)
        = (l.filter (fun a => decide (c a))).map g
  | [] => rfl
  | a :: t => by
    by_cases h : c a <;>
      simp [List.filterMap_cons, List.filter_cons, h, filterMap_if c g t]

theorem length_normalizeVec (sqrt : ℚ → ℚ) (v : List ℚ) :
    (normalizeVec sqrt v).length = v.length := by
  unfold normalizeVec
  by_cases h : 0 < sqrt (sumSq v) <;> simp [h]

/-! ## Claims about the vector store -/

/-- C1: whenever `search(q, k, t)` returns a result list, every returned
score is `≥ t`, at most `k` results are returned, and the results are
ordered by strictly descending score with ties broken by ascending insertion
id (first inserted wins); searching an empty index returns `[]` without
error. -/
theorem C1_search_contract (sqrt : ℚ → ℚ) (s : SimpleVectorStore)
    (q : List ℚ) (k : ℕ) (t : ℚ) :
    (∀ r, s.search sqrt q k t = Except.ok r →
        (∀ x ∈ r, t ≤ x.score) ∧
        r.length ≤ k ∧
        List.Pairwise (fun a b : SearchResult =>
          b.score < a.score ∨ (a.score = b.score ∧ a.index < b.index)) r) ∧
    (s.vectors = [] → s.search sqrt q k t = Except.ok []) := by
  unfold SimpleVectorStore.search
  by_cases hemp : s.vectors.length = 0
  · rw [if_pos hemp]
    refine ⟨?_, fun _ => rfl⟩
    intro r hr
    have hr' : ([] : List SearchResult) = r := Except.ok.inj hr
    subst hr'
    exact ⟨by simp, by simp, by simp⟩
  · rw [if_neg hemp]
    refine ⟨?_, ?_⟩
    · intro r hr
      dsimp only at hr
      by_cases hdim : (normalizeVec sqrt q).length ≠ s.dimension
      · rw [if_pos hdim] at hr
        cases hr
      · rw [if_neg hdim] at hr
        have hrform := (Except.ok.inj hr).symm
        have hfm : r = (((sortRes (scorePairs s.vectors (normalizeVec sqrt q))).take
            (min k s.vectors.length)).filter
              (fun p => decide (t ≤ p.1))).map (fun p =>
                { text := s.texts.getD p.2 []
                  score := p.1
                  metadata := s.metadata.getD p.2 []
                  index := p.2 }) := by
          rw [hrform, filterMap_if (fun p : ℚ × ℕ => t ≤ p.1)]
        refine ⟨?_, ?_, ?_⟩
        · intro x hx
          rw [hfm] at hx
          obtain ⟨p, hp, hgx⟩ := List.mem_map.mp hx
          have hpt := (List.mem_filter.mp hp).2
          have : t ≤ p.1 := of_decide_eq_true hpt
          rw [← hgx]
          exact this
        · rw [hfm, List.length_map]
          have h1 := List.length_filter_le (fun p : ℚ × ℕ => decide (t ≤ p.1))
            ((sortRes (scorePairs s.vectors (normalizeVec sqrt q))).take
              (min k s.vectors.length))
          have h2 : ((sortRes (scorePairs s.vectors (normalizeVec sqrt q))).take
              (min k s.vectors.length)).length ≤ min k s.vectors.length := by
            rw [List.length_take]
            exact Nat.min_le_left _ _
          have h3 : min k s.vectors.length ≤ k := Nat.min_le_left _ _
          omega
        · have hall := (pairwise_sortRes (scorePairs s.vectors (normalizeVec sqrt q))).and
            (sortRes_pairwise_ne _ (scorePairs_pairwise_ne s.vectors (normalizeVec sqrt q)))
          have htake := hall.sublist
            (List.take_sublist (min k s.vectors.length)
              (sortRes (scorePairs s.vectors (normalizeVec sqrt q))))
          have hfil := htake.sublist
            (@List.filter_sublist (ℚ × ℕ) (fun p => decide (t ≤ p.1))
              ((sortRes (scorePairs s.vectors
                (normalizeVec sqrt q))).take (min k s.vectors.length)))
          rw [hfm, List.pairwise_map]
          refine hfil.imp ?_
          intro a b hab
          obtain ⟨hle, hne⟩ := hab
          rcases hle with hlt | ⟨heq, hle2⟩
          · left
            exact hlt
          · right
            exact ⟨heq, lt_of_le_of_ne hle2 hne⟩
    · intro hnil
      rw [hnil] at hemp
      simp at hemp

def sqrtId : ℚ → ℚ := fun x => x

def storeC1 : SimpleVectorStore :=
  { dimension := 2, vectors := [[1, 0], [0, 1]],
    texts := ["t0".toList, "t1".toList], metadata := [[], []] }

def resC1 : List SearchResult :=
  [ { text := "t0".toList, score := 1, metadata := [], index := 0 },
    { text := "t1".toList, score := 0, metadata := [], index := 1 } ]

theorem C1_witness :
    (∀ x ∈ resC1, (0 : ℚ) ≤ x.score) ∧
    resC1.length ≤ 5 ∧
    List.Pairwise (fun a b : SearchResult =>
      b.score < a.score ∨ (a.score = b.score ∧ a.index < b.index)) resC1 :=
  (C1_search_contract sqrtId storeC1 [1, 0] 5 0).1 resC1 (by
    norm_num [SimpleVectorStore.search, normalizeVec, sumSq, scorePairs, dot,
      sortRes, insertRes, resLE, storeC1, sqrtId, resC1, List.filterMap_cons,
      List.getD])

/-- C4: `save()` followed by construction-with-`_load` at the same
configured dimension reproduces the store exactly (same vectors, texts,
metadata and dimension), and therefore `search` answers every fixed query
identically (in this exact-arithmetic model, with equal scores and order). -/
theorem C4_save_load_roundtrip (s : SimpleVectorStore) :
    initStore s.dimension s.save = s ∧
    ∀ (sqrt : ℚ → ℚ) (q : List ℚ) (k : ℕ) (t : ℚ),
      (initStore s.dimension s.save).search sqrt q k t = s.search sqrt q k t := by
  have h : initStore s.dimension s.save = s := by
    cases s
    rfl
  exact ⟨h, fun sqrt q k t => by rw [h]⟩

theorem sumSq_map_div (c : ℚ) (hc : c ≠ 0) :
    ∀ v : List ℚ, sumSq (v.map (fun x => x / c)) = sumSq v / (c * c)
  | [] => by simp [sumSq]
  | x :: t => by
    have ih := sumSq_map_div c hc t
    simp only [sumSq, List.map_cons, List.sum_cons] at ih ⊢
    rw [ih, div_mul_div_comm, div_add_div_same]

/-- C5: a successful `add_vector(v, ...)` appends exactly the normalized
vector; when the computed norm is positive, that vector is `v` scaled by
`1 / norm`, and if the norm is an exact square root of the sum of squares
(a nonzero `v` in exact arithmetic), the stored vector has squared L2 norm
exactly 1; when the norm is not positive (zero norm), normalization is
skipped and `v` is stored unchanged. -/
theorem C5_normalization (sqrt : ℚ → ℚ) (s : SimpleVectorStore) (v : List ℚ)
    (txt : Str) (md : Option Meta) (out : SimpleVectorStore × ℕ)
    (h : s.add_vector sqrt v txt md = Except.ok out) :
    out.1.vectors = s.vectors ++ [normalizeVec sqrt v] ∧
    (¬ 0 < sqrt (sumSq v) → normalizeVec sqrt v = v) ∧
    (0 < sqrt (sumSq v) →
      normalizeVec sqrt v = v.map (fun x => x / sqrt (sumSq v)) ∧
      (sqrt (sumSq v) * sqrt (sumSq v) = sumSq v →
        sumSq (normalizeVec sqrt v) = 1)) := by
  unfold SimpleVectorStore.add_vector at h
  dsimp only at h
  by_cases hdim : (normalizeVec sqrt v).length ≠ s.dimension
  · rw [if_pos hdim] at h
    cases h
  · rw [if_neg hdim] at h
    have hout := Except.ok.inj h
    refine ⟨?_, ?_, ?_⟩
    · rw [← hout]
    · intro hpos
      unfold normalizeVec
      rw [if_neg hpos]
    · intro hpos
      have hform : normalizeVec sqrt v = v.map (fun x => x / sqrt (sumSq v)) := by
        unfold normalizeVec
        rw [if_pos hpos]
      refine ⟨hform, ?_⟩
      intro hsq
      have hne : sqrt (sumSq v) ≠ 0 := ne_of_gt hpos
      rw [hform, sumSq_map_div (sqrt (sumSq v)) hne v, hsq]
      have hsumne : sumSq v ≠ 0 := by
        rw [← hsq]
        exact mul_ne_zero hne hne
      exact div_self hsumne

def sqrt25 : ℚ → ℚ := fun x => if x = 25 then 5 else 0

def storeC5 : SimpleVectorStore :=
  { dimension := 2, vectors := [], texts := [], metadata := [] }

def storeC5' : SimpleVectorStore :=
  { dimension := 2, vectors := [[3 / 5, 4 / 5]], texts := ["v".toList],
    metadata := [[]] }

theorem C5_witness :
    storeC5'.vectors = storeC5.vectors ++ [normalizeVec sqrt25 [3, 4]] ∧
    normalizeVec sqrt25 [(3 : ℚ), 4] = [3, 4].map (fun x => x / sqrt25 (sumSq [3, 4])) ∧
    sumSq (normalizeVec sqrt25 [(3 : ℚ), 4]) = 1 := by
  have happ : SimpleVectorStore.add_vector sqrt25 storeC5 [3, 4] ("v".toList) none
      = Except.ok (storeC5', 0) := by
    norm_num [SimpleVectorStore.add_vector, normalizeVec, sumSq, sqrt25, storeC5, storeC5']
  have hmain := C5_normalization sqrt25 storeC5 [3, 4] ("v".toList) none (storeC5', 0) happ
  have hpos : (0 : ℚ) < sqrt25 (sumSq [3, 4]) := by
    norm_num [sqrt25, sumSq]
  have hsq : sqrt25 (sumSq [3, 4]) * sqrt25 (sumSq [3, 4]) = sumSq [3, 4] := by
    norm_num [sqrt25, sumSq]
  exact ⟨hmain.1, (hmain.2.2 hpos).1, (hmain.2.2 hpos).2 hsq⟩

def storeC6 : SimpleVectorStore :=
  { dimension := 3, vectors := [], texts := [], metadata := [] }

/-- C6 as stated is false: on an *empty* index, `search` returns before the
FAISS call, so a query of mismatched dimension (here width 2 against a
3-dimensional store) yields `ok []` instead of a `DimensionMismatch`
failure. -/
theorem C6_counterexample :
    [(1 : ℚ), 2].length ≠ storeC6.dimension ∧
    SimpleVectorStore.search sqrtId storeC6 [1, 2] 5 0 = Except.ok [] := by
  refine ⟨by decide, ?_⟩
  rfl

/-- C6, amended: `add_vector` with a vector of mismatched dimension always
fails with `DimensionMismatch`; `search` with a query of mismatched
dimension fails with `DimensionMismatch` whenever the index is nonempty; on
an empty index `search` returns `[]` regardless of the query's dimension
(the empty-index early return precedes the dimension check). -/
theorem C6_amended_dimension_mismatch :
    (∀ (sqrt : ℚ → ℚ) (s : SimpleVectorStore) (v : List ℚ) (txt : Str)
        (md : Option Meta), v.length ≠ s.dimension →
      s.add_vector sqrt v txt md = Except.error VSError.dimensionMismatch) ∧
    (∀ (sqrt : ℚ → ℚ) (s : SimpleVectorStore) (q : List ℚ) (k : ℕ) (t : ℚ),
      s.vectors ≠ [] → q.length ≠ s.dimension →
      s.search sqrt q k t = Except.error VSError.dimensionMismatch) ∧
    (∀ (sqrt : ℚ → ℚ) (s : SimpleVectorStore) (q : List ℚ) (k : ℕ) (t : ℚ),
      s.vectors = [] → s.search sqrt q k t = Except.ok []) := by
  refine ⟨?_, ?_, ?_⟩
  · intro sqrt s v txt md hv
    unfold SimpleVectorStore.add_vector
    dsimp only
    rw [if_pos (by rw [length_normalizeVec]; exact hv)]
  · intro sqrt s q k t hne hq
    unfold SimpleVectorStore.search
    rw [if_neg (by simpa using hne)]
    dsimp only
    rw [if_pos (by rw [length_normalizeVec]; exact hq)]
  · intro sqrt s q k t hnil
    unfold SimpleVectorStore.search
    rw [if_pos (by simp [hnil])]

def storeC6b : SimpleVectorStore :=
  { dimension := 3, vectors := [[1, 0, 0]], texts := ["t".toList],
    metadata := [[]] }

theorem C6_witness :
    SimpleVectorStore.add_vector sqrtId storeC6b [1, 2] ("x".toList) none
        = Except.error VSError.dimensionMismatch ∧
    SimpleVectorStore.search sqrtId storeC6b [1, 2] 5 0
        = Except.error VSError.dimensionMismatch ∧
    SimpleVectorStore.search sqrtId storeC6 [1, 2] 5 0 = Except.ok [] :=
  ⟨C6_amended_dimension_mismatch.1 sqrtId storeC6b [1, 2] ("x".toList) none (by decide),
    C6_amended_dimension_mismatch.2.1 sqrtId storeC6b [1, 2] 5 0 (by decide) (by decide),
    C6_amended_dimension_mismatch.2.2 sqrtId storeC6 [1, 2] 5 0 (by decide)⟩

/-- C10: the parallel-array invariant
`len(vectors) = len(texts) = len(metadata)` holds for a fresh store and is
preserved by `add_vector` (which fails without changing the store on a
dimension mismatch), by `clear`, and by a save/reload; a successful
`add_vector` returns `len(self.texts)` as taken before the append and grows
the store by exactly one entry, so successive successful calls return the
consecutive ordinal ids 0, 1, 2, .... -/
theorem C10_parallel_arrays :
    (∀ d : ℕ, StoreInv (initStore d emptyDisk)) ∧
    (∀ (sqrt : ℚ → ℚ) (s : SimpleVectorStore) (v : List ℚ) (txt : Str)
        (md : Option Meta) (out : SimpleVectorStore × ℕ),
      StoreInv s → s.add_vector sqrt v txt md = Except.ok out →
      StoreInv out.1 ∧ out.2 = s.texts.length ∧
        out.1.texts.length = s.texts.length + 1) ∧
    (∀ s : SimpleVectorStore, StoreInv s.clear) ∧
    (∀ (s : SimpleVectorStore), StoreInv s → StoreInv (initStore s.dimension s.save)) := by
  refine ⟨?_, ?_, ?_, ?_⟩
  · intro d
    exact ⟨rfl, rfl⟩
  · intro sqrt s v txt md out hs hadd
    unfold SimpleVectorStore.add_vector at hadd
    dsimp only at hadd
    by_cases hdim : (normalizeVec sqrt v).length ≠ s.dimension
    · rw [if_pos hdim] at hadd
      cases hadd
    · rw [if_neg hdim] at hadd
      have hout := Except.ok.inj hadd
      rw [← hout]
      obtain ⟨h1, h2⟩ := hs
      refine ⟨⟨?_, ?_⟩, rfl, ?_⟩ <;> simp [h1, h2]
  · intro s
    exact ⟨rfl, rfl⟩
  · intro s hs
    have h : initStore s.dimension s.save = s := by
      cases s
      rfl
    rw [h]
    exact hs

def storeC10 : SimpleVectorStore :=
  { dimension := 2, vectors := [[1, 0]], texts := ["t".toList], metadata := [[]] }

theorem C10_witness :
    StoreInv (initStore 2 emptyDisk) ∧
    ∃ out : SimpleVectorStore × ℕ,
      SimpleVectorStore.add_vector sqrtId (initStore 2 emptyDisk) [1, 0]
          ("t".toList) none = Except.ok out ∧
      StoreInv out.1 ∧ out.2 = 0 ∧ out.1.texts.length = 1 := by
  have h0 : StoreInv (initStore 2 emptyDisk) := C10_parallel_arrays.1 2
  have hadd : SimpleVectorStore.add_vector sqrtId (initStore 2 emptyDisk) [1, 0]
      ("t".toList) none = Except.ok (storeC10, 0) := by
    norm_num [SimpleVectorStore.add_vector, normalizeVec, sumSq, sqrtId, initStore,
      emptyDisk, storeC10]
  have hmain := C10_parallel_arrays.2.1 sqrtId (initStore 2 emptyDisk) [1, 0]
    ("t".toList) none _ h0 hadd
  exact ⟨h0, _, hadd, hmain.1, hmain.2.1, hmain.2.2⟩

/-! ## SEMPKnowledgeBase (src/rag/knowledge_base.py)

The knowledge base's collaborators (S3 listing/download/metadata, the text
extraction of `DocumentProcessor.extract_text` over third-party parsers, and
the OpenAI embedding call) are modelled as an environment record; `none`
models a call that raises or returns `None`.  The `vecclean.VectorStore`
used by the knowledge base exposes the same interface as the repository's
`SimpleVectorStore` and is modelled by it. -/

/-- One entry of `S3KnowledgeBaseClient.list_documents()`. -/
structure DocInfo where
  key : Str
  filename : Str
  size : ℕ
  modified : Str
deriving DecidableEq

/-- One value of the `document_metadata` cache. -/
structure DocRecord where
  filename : Str
  processed_at : Str
  chunk_count : ℕ
  document_type : Str
deriving DecidableEq

/-- External collaborators and configuration of the knowledge base.
`listDocs = none` models an exception in the S3 listing; `download`,
`extract` and `embed` return `none` on failure (`embed = none` models the
exception re-raised by `_get_embedding`); `saveOk` tells whether
`vector_store.save()` succeeds or raises. -/
structure KBEnv where
  listDocs : Option (List DocInfo)
  download : Str → Option Str
  contentType : Str → Option Str
  extract : Str → Str → Str → Option Str
  embed : Str → Option (List ℚ)
  saveOk : Bool
  sqrtFn : ℚ → ℚ
  chunkSize : ℕ
  chunkOverlap : ℕ

/-- Mutable state of `SEMPKnowledgeBase`: the vector store and the
`document_metadata` cache. -/
structure KBState where
  store : SimpleVectorStore
  docMeta : List (Str × DocRecord)

def lookupKey {α : Type} : List (Str × α) → Str → Option α
  | [], _ => none
  | (k, v) :: t, key => if k = key then some v else lookupKey t key

def setKey {α : Type} : List (Str × α) → Str → α → List (Str × α)
  | [], key, v => [(key, v)]
  | (k, w) :: t, key, v =>
    if k = key then (k, v) :: t else (k, w) :: setKey t key v

def startsWithStr : Str → Str → Bool
  | _, [] => true
  | [], _ :: _ => false
  | h :: hs, n :: ns => h == n && startsWithStr hs ns

/-- Python `needle in hay` for strings. -/
def containsSub : Str → Str → Bool
  | [], needle => startsWithStr [] needle
  | h :: t, needle => startsWithStr (h :: t) needle || containsSub t needle

/-- `SEMPKnowledgeBase._classify_document_type`. -/
def classifyDocumentType (filename : Str) : Str :=
  let f := filename.map Char.toLower
  if containsSub f ("semp".toList) then "SEMP".toList
  else if containsSub f ("requirement".toList) then "Requirements".toList
  else if containsSub f ("guide".toList) || containsSub f ("guideline".toList) then
    "Guide".toList
  else if containsSub f ("standard".toList) then "Standard".toList
  else if containsSub f ("debt".toList) then "Debt_Detection".toList
  else "General".toList

/-- `metadata.get(key, default)` for string values. -/
def metaGetS (m : Meta) (k dflt : Str) : Str :=
  match lookupKey m k with
  | some (PyVal.s v) => v
  | _ => dflt

/-- `metadata.get(key, default)` for integer values. -/
def metaGetN (m : Meta) (k : Str) (dflt : Int) : Int :=
  match lookupKey m k with
  | some (PyVal.n v) => v
  | _ => dflt

/-- `SEMPKnowledgeBase._is_document_processed`. -/
def isDocumentProcessed (st : KBState) (key modified : Str) : Bool :=
  match lookupKey st.docMeta key with
  | none => false
  | some r => decide (r.processed_at = modified)

/-- The embed-and-add loop of `_process_document`.  An embedding failure
raises out of the loop (caught by `_process_document`, which returns
`False`); chunks already added stay in the store. -/
def embedChunks (env : KBEnv) (chunk_metadata : Meta) :
    SimpleVectorStore → List Chunk → Bool × SimpleVectorStore
  | store, [] => (true, store)
  | store, c :: cs =>
    match env.embed c.text with
    | none => (false, store)
    | some emb =>
      match SimpleVectorStore.add_vector env.sqrtFn store emb c.text
          (some (chunk_metadata ++
            [("chunk_index".toList, PyVal.n (c.chunk_index : Int)),
             ("word_count".toList, PyVal.n (c.word_count : Int)),
             ("char_count".toList, PyVal.n (c.char_count : Int))])) with
      | Except.error _ => (false, store)
      | Except.ok out => embedChunks env chunk_metadata out.1 cs

/-- `SEMPKnowledgeBase._process_document`: download, resolve content type,
extract text, chunk, embed and add each chunk, then record the document in
the metadata cache; every failure path returns `False` (the catch-all) and
leaves already-added chunks in place. -/
def processDocument (env : KBEnv) (st : KBState) (d : DocInfo) : Bool × KBState :=
  match env.download d.key with
  | none => (false, st)
  | some content =>
    if content = [] then (false, st)
    else
      let content_type := (env.contentType d.key).getD ("unknown".toList)
      match env.extract content d.filename content_type with
      | none => (false, st)
      | some text =>
        if text = [] then (false, st)
        else
          let doc_type := classifyDocumentType d.filename
          let chunk_metadata : Meta :=
            [("document_name".toList, PyVal.s d.filename),
             ("document_key".toList, PyVal.s d.key),
             ("document_type".toList, PyVal.s doc_type),
             ("content_type".toList, PyVal.s content_type),
             ("size".toList, PyVal.n (d.size : Int)),
             ("modified".toList, PyVal.s d.modified)]
          let chunks := chunk_text env.chunkSize env.chunkOverlap text (some chunk_metadata)
          match embedChunks env chunk_metadata st.store chunks with
          | (false, store') => (false, { st with store := store' })
          | (true, store') =>
            (true, { store := store',
                     docMeta := setKey st.docMeta d.key
                       ⟨d.filename, d.modified, chunks.length, doc_type⟩ })

/-- `SEMPKnowledgeBase.initialize_knowledge_base`: list documents (a raising
listing or an empty listing yields `False`), select stale/new documents,
process each one ignoring its boolean outcome, then persist; a raising
`vector_store.save()` is caught by the outer handler which returns `False`.
`_save_document_metadata` swallows its own errors and cannot raise. -/
def initialize_knowledge_base (env : KBEnv) (st : KBState) (force_refresh : Bool) :
    Bool × KBState :=
  match env.listDocs with
  | none => (false, st)
  | some documents =>
    if documents = [] then (false, st)
    else
      let documents_to_process := documents.filter
        (fun d => force_refresh || !(isDocumentProcessed st d.key d.modified))
      if documents_to_process = [] then (true, st)
      else
        let st' := documents_to_process.foldl
          (fun s d => (processDocument env s d).2) st
        if env.saveOk then (true, st') else (false, st')

/-- The `documents_to_process` list computed by `initialize_knowledge_base`
(empty when the listing raises). -/
def documentsToProcess (env : KBEnv) (st : KBState) (force_refresh : Bool) :
    List DocInfo :=
  match env.listDocs with
  | none => []
  | some documents =>
    documents.filter (fun d => force_refresh || !(isDocumentProcessed st d.key d.modified))

/-- One formatted hit of `SEMPKnowledgeBase.search_knowledge_base`. -/
structure KBSearchResult where
  text : Str
  score : ℚ
  document : Str
  chunk_index : Int
  document_type : Str
  metadata : Meta
deriving DecidableEq

/-- The `try` body of `search_knowledge_base`: embed the query (a failure
raises), search the store (a failure raises), then reshape the hits.
`none` is a raised exception reaching the `except` handler. -/
def searchKBBody (env : KBEnv) (store : SimpleVectorStore) (query : Str)
    (top_k : ℕ) (score_threshold : ℚ) : Option (List KBSearchResult) :=
  match env.embed query with
  | none => none
  | some emb =>
    match SimpleVectorStore.search env.sqrtFn store emb top_k score_threshold with
    | Except.error _ => none
    | Except.ok results =>
      some (results.map (fun r =>
        { text := r.text
          score := r.score
          document := metaGetS r.metadata ("document_name".toList) ("unknown".toList)
          chunk_index := metaGetN r.metadata ("chunk_index".toList) 0
          document_type := metaGetS r.metadata ("document_type".toList) ("unknown".toList)
          metadata := r.metadata }))

/-- `SEMPKnowledgeBase.search_knowledge_base`: the catch-all handler turns
any exception of the body into the empty result list. -/
def search_knowledge_base (env : KBEnv) (store : SimpleVectorStore) (query : Str)
    (top_k : ℕ) (score_threshold : ℚ) : List KBSearchResult :=
  (searchKBBody env store query top_k score_threshold).getD []

/-! ## Claims about the knowledge base -/

def docD : DocInfo :=
  { key := "k".toList, filename := "f.txt".toList, size := 1, modified := "T1".toList }

def kbEnvC7 : KBEnv :=
  { listDocs := some [docD]
    download := fun _ => none
    contentType := fun _ => none
    extract := fun _ _ _ => none
    embed := fun _ => none
    saveOk := false
    sqrtFn := fun x => x
    chunkSize := 10
    chunkOverlap := 2 }

def kbState0 : KBState :=
  { store := initStore 1536 emptyDisk, docMeta := [] }

/-- C7 as stated is false: with one (stale) document present and a listing
that succeeds, `initialize_knowledge_base` still returns `False` when the
final `vector_store.save()` raises, so `False` is not equivalent to "no
documents exist or the listing failed". -/
theorem C7_counterexample :
    kbEnvC7.listDocs = some [docD] ∧ [docD] ≠ [] ∧
    (initialize_knowledge_base kbEnvC7 kbState0 false).1 = false := by
  refine ⟨rfl, by decide, ?_⟩
  rfl

/-- C7, amended: `initialize_knowledge_base` returns `False` exactly when
the listing raises, or no documents exist, or at least one document needed
processing and the final `vector_store.save()` raised; and the returned
boolean never depends on the per-document outcomes (download, content type,
extraction, embedding) — those failures are logged and the boolean is
computed from the listing, the staleness filter and the save outcome
alone. -/
theorem C7_amended_return_value :
    (∀ (env : KBEnv) (st : KBState) (force : Bool),
      (initialize_knowledge_base env st force).1 = false ↔
        (env.listDocs = none ∨ env.listDocs = some [] ∨
          (documentsToProcess env st force ≠ [] ∧ env.saveOk = false))) ∧
    (∀ (e₁ e₂ : KBEnv) (st : KBState) (force : Bool),
      e₁.listDocs = e₂.listDocs → e₁.saveOk = e₂.saveOk →
      (initialize_knowledge_base e₁ st force).1
        = (initialize_knowledge_base e₂ st force).1) := by
  constructor
  · intro env st force
    unfold initialize_knowledge_base documentsToProcess
    cases hl : env.listDocs with
    | none =>
      simp
    | some documents =>
      dsimp only
      by_cases hd : documents = []
      · rw [if_pos hd]
        subst hd
        simp
      · rw [if_neg hd]
        by_cases hf : documents.filter
            (fun d => force || !(isDocumentProcessed st d.key d.modified)) = []
        · rw [if_pos hf]
          simp only [hf]
          constructor
          · intro h
            cases h
          · intro h
            rcases h with h | h | ⟨h1, _⟩
            · cases h
            · exact absurd (Option.some.inj h) hd
            · exact absurd rfl h1
        · rw [if_neg hf]
          by_cases hs : env.saveOk = true
          · rw [if_pos hs]
            simp only [hs]
            constructor
            · intro h
              cases h
            · intro h
              rcases h with h | h | ⟨_, h2⟩
              · cases h
              · exact absurd (Option.some.inj h) hd
              · cases h2
          · rw [if_neg hs]
            have hs' : env.saveOk = false := by
              cases h : env.saveOk
              · rfl
              · exact absurd h hs
            constructor
            · intro _
              right; right
              exact ⟨hf, hs'⟩
            · intro _
              rfl
  · intro e₁ e₂ st force h1 h2
    unfold initialize_knowledge_base
    rw [← h1, ← h2]
    cases hl : e₁.listDocs with
    | none => rfl
    | some documents =>
      dsimp only
      by_cases hd : documents = []
      · rw [if_pos hd, if_pos hd]
      · rw [if_neg hd, if_neg hd]
        by_cases hf : documents.filter
            (fun d => force || !(isDocumentProcessed st d.key d.modified)) = []
        · rw [if_pos hf, if_pos hf]
        · rw [if_neg hf, if_neg hf]
          by_cases hs : e₁.saveOk = true
          · rw [if_pos hs, if_pos hs]
          · rw [if_neg hs, if_neg hs]

def kbEnvC7b : KBEnv :=
  { kbEnvC7 with download := fun _ => some ("text".toList) }

theorem C7_amended_witness :
    ((initialize_knowledge_base kbEnvC7 kbState0 false).1 = false ↔
      (kbEnvC7.listDocs = none ∨ kbEnvC7.listDocs = some [] ∨
        (documentsToProcess kbEnvC7 kbState0 false ≠ [] ∧ kbEnvC7.saveOk = false))) ∧
    (initialize_knowledge_base kbEnvC7 kbState0 false).1
      = (initialize_knowledge_base kbEnvC7b kbState0 false).1 :=
  ⟨(C7_amended_return_value.1 kbEnvC7 kbState0 false),
    C7_amended_return_value.2 kbEnvC7 kbEnvC7b kbState0 false rfl rfl⟩

def kbEnvC8 : KBEnv :=
  { listDocs := none
    download := fun _ => none
    contentType := fun _ => none
    extract := fun _ _ _ => none
    embed := fun _ => none
    saveOk := true
    sqrtFn := fun x => x
    chunkSize := 10
    chunkOverlap := 2 }

/-- C8 as stated is false: when the embedding call raises inside
`search_knowledge_base` (the body aborts with an exception), the function's
catch-all handler swallows it and the call returns the empty list normally —
no exception escapes to the caller. -/
theorem C8_counterexample :
    kbEnvC8.embed ("q".toList) = none ∧
    searchKBBody kbEnvC8 (initStore 1536 emptyDisk) ("q".toList) 5 (7 / 10) = none ∧
    search_knowledge_base kbEnvC8 (initStore 1536 emptyDisk) ("q".toList) 5 (7 / 10)
      = [] :=
  ⟨rfl, rfl, rfl⟩

/-- C8, amended: an embedding-service failure during
`search_knowledge_base` is caught by the function's catch-all handler,
which logs it and returns the empty list; the failure is not propagated as
an exception, so the empty list serves both the no-hits path and the
failure path. -/
theorem C8_amended_embed_failure (env : KBEnv) (store : SimpleVectorStore)
    (query : Str) (top_k : ℕ) (score_threshold : ℚ)
    (h : env.embed query = none) :
    search_knowledge_base env store query top_k score_threshold = [] := by
  unfold search_knowledge_base searchKBBody
  rw [h]
  rfl

theorem C8_amended_witness :
    search_knowledge_base kbEnvC8 (initStore 1536 emptyDisk) ("q".toList) 5 (7 / 10)
      = [] :=
  C8_amended_embed_failure kbEnvC8 (initStore 1536 emptyDisk) ("q".toList) 5 (7 / 10) rfl
